import Mathlib

/-!
Shallow embedding of the two pipeline scripts of this repository:
the full-page-OCR pipeline (image size capping, page loop, blank-line
normalization) and the image-description pipeline (data-URI regex scanning,
context-window building, marker replacement).  Text is modelled as List Char,
byte strings as List Nat, and the external PIL / PyMuPDF / LLM collaborators
as explicit function parameters.
-/

/-! ### Python string helpers -/

/-- The character class matched by the Python regex escape for whitespace
(ASCII range: space, tab, newline, carriage return, vertical tab, form feed). -/
def isPySpace (c : Char) : Bool :=
  c = ' ' || c = '\t' || c = '\n' || c = '\r' || c.toNat = 11 || c.toNat = 12

/-- Python slice s[a:b] for 0 ≤ a ≤ b (clamping to the list bounds). -/
def pySlice (s : List Char) (a b : Nat) : List Char :=
  (s.drop a).take (b - a)

/-- Python str.rstrip(): remove trailing whitespace. -/
def pyRstrip (s : List Char) : List Char :=
  (s.reverse.dropWhile isPySpace).reverse

/-- Python str.strip(): remove leading and trailing whitespace. -/
def pyStrip (s : List Char) : List Char :=
  pyRstrip (s.dropWhile isPySpace)

/-- Python str.startswith on character lists (pattern, then subject). -/
def pyStartsWith : List Char → List Char → Bool
  | [], _ => true
  | _ :: _, [] => false
  | p :: ps, c :: cs => p = c && pyStartsWith ps cs

/-- Python sep.join(parts). -/
def joinSep (sep : List Char) : List (List Char) → List Char
  | [] => []
  | [x] => x
  | x :: xs => x ++ sep ++ joinSep sep xs

/-! ### The two image regexes of pdf_to_markdown_with_image_descriptions.py

The data-URI image pattern and the generic image-link pattern.  Both regexes
are deterministic for matching purposes: every greedy character class in them
excludes the literal character that must follow it, so the greedy maximal run
is the only candidate and no backtracking can produce a different match. -/

/-- Character class of the image subtype part of the data-URI pattern. -/
def isTypeChar (c : Char) : Bool :=
  c.isAlpha || c.isDigit || c = '.' || c = '+' || c = '-'

/-- Character class of the base64 payload part of the data-URI pattern
(letters, digits, plus, slash, equals, carriage return, newline). -/
def isB64Char (c : Char) : Bool :=
  c.isAlpha || c.isDigit || c = '+' || c = '/' || c = '=' || c = '\r' || c = '\n'

/-- Consume an exact literal from the front of a character list. -/
def dropLit : List Char → List Char → Option (List Char)
  | [], s => some s
  | _ :: _, [] => none
  | l :: ls, c :: cs => if c = l then dropLit ls cs else none

/-- Attempt to match IMAGE_DATAURI_PATTERN at the head of the input.
On success, return the remainder after the match together with the captured
group (the full data URI inside the parentheses). -/
def matchDataURIAt (s : List Char) : Option (List Char × List Char) :=
  match s with
  | '!' :: '[' :: r0 =>
    match r0.dropWhile (fun c => !(c = ']')) with
    | ']' :: '(' :: r1 =>
      match dropLit ("data:image/".toList) r1 with
      | some r2 =>
        let ty := r2.takeWhile isTypeChar
        if ty.isEmpty then none else
        match dropLit (";base64,".toList) (r2.dropWhile isTypeChar) with
        | some r3 =>
          let b64 := r3.takeWhile isB64Char
          if b64.isEmpty then none else
          match r3.dropWhile isB64Char with
          | ')' :: r4 =>
            some (r4, "data:image/".toList ++ ty ++ ";base64,".toList ++ b64)
          | _ => none
        | none => none
      | none => none
    | _ => none
  | _ => none

/-- Attempt to match the generic image-link pattern (bang, bracketed alt text,
then a parenthesized nonempty body) at the head of the input.  Returns the
remainder and the parenthesized body. -/
def matchImageRefAt (s : List Char) : Option (List Char × List Char) :=
  match s with
  | '!' :: '[' :: r0 =>
    match r0.dropWhile (fun c => !(c = ']')) with
    | ']' :: '(' :: r1 =>
      let inner := r1.takeWhile (fun c => !(c = ')'))
      if inner.isEmpty then none else
      match r1.dropWhile (fun c => !(c = ')')) with
      | ')' :: r2 => some (r2, inner)
      | _ => none
    | _ => none
  | _ => none

/-- Attempt to match one maximal run of whitespace at the head of the input
(the whitespace-run regex used by collapse_whitespace). -/
def matchWSAt (s : List Char) : Option (List Char × List Char) :=
  match s with
  | c :: cs => if isPySpace c then some (cs.dropWhile isPySpace, []) else none
  | [] => none

/-- Fuel-indexed left-to-right regex substitution: at each position try the
matcher; on a match emit the replacement and resume after the match, otherwise
keep the character and advance one position.  This is the scan performed by
the Python regex sub function.  The fuel only serves to make the recursion
structural; reSub always supplies enough. -/
def reSubAux (M : List Char → Option (List Char × List Char)) (repl : List Char) :
    Nat → List Char → List Char
  | 0, s => s
  | _ + 1, [] => []
  | f + 1, c :: cs =>
    match M (c :: cs) with
    | some (rest, _) => repl ++ reSubAux M repl f rest
    | none => c :: reSubAux M repl f cs

/-- Left-to-right non-overlapping regex substitution. -/
def reSub (M : List Char → Option (List Char × List Char)) (repl : List Char)
    (s : List Char) : List Char :=
  reSubAux M repl s.length s

/-- strip_images_from_text: replace data-URI image markers with a short
placeholder, then any remaining image-link markup with a second placeholder. -/
def strip_images_from_text (text : List Char) : List Char :=
  reSub matchImageRefAt ("[ImageRef]".toList)
    (reSub matchDataURIAt ("[Image]".toList) text)

/-- collapse_whitespace: collapse each whitespace run to a single space and
strip the ends. -/
def collapse_whitespace (text : List Char) : List Char :=
  pyStrip (reSub matchWSAt [' '] text)

/-- Default context-window budget before the image marker. -/
def CONTEXT_BEFORE_CHARS : Nat := 400

/-- Default context-window budget after the image marker. -/
def CONTEXT_AFTER_CHARS : Nat := 400

/-- Default cap on the combined context string. -/
def MAX_CONTEXT_CHARS : Nat := 1000

/-- build_surrounding_context: take the window before the span start and after
the span end, strip nested image markup from each, insert the location marker
between them, collapse whitespace, and truncate with an ellipsis when the
result exceeds the configured maximum.  The module-level configuration values
are passed as the last three arguments. -/
def build_surrounding_context (markdown : List Char) (start_idx end_idx : Nat)
    (ctx_before ctx_after max_ctx : Nat) : List Char :=
  let before := pySlice markdown (start_idx - ctx_before) start_idx
  let after := pySlice markdown end_idx (min markdown.length (end_idx + ctx_after))
  let before := strip_images_from_text before
  let after := strip_images_from_text after
  let context := collapse_whitespace (before ++ " [IMAGE LOCATION] ".toList ++ after)
  if max_ctx < context.length then context.take max_ctx ++ "…".toList else context

/-- Whether some position of the input starts a data-URI image match. -/
def containsDataURIMatch : List Char → Bool
  | [] => false
  | c :: cs => (matchDataURIAt (c :: cs)).isSome || containsDataURIMatch cs

/-! ### replace_images_with_text -/

/-- A vision client: from the captured data URI and the surrounding-context
string to the description text; none models an exception raised by the call. -/
def DescribeFn : Type := List Char → List Char → Option (List Char)

/-- Fuel-indexed scan producing the non-overlapping matches of the data-URI
pattern along with their absolute (start, end) offsets and captured group;
this is the match list produced by the regex finditer call. -/
def finditAux : Nat → Nat → List Char → List (Nat × Nat × List Char)
  | 0, _, _ => []
  | _ + 1, _, [] => []
  | f + 1, p, c :: cs =>
    match matchDataURIAt (c :: cs) with
    | some (rest, g) =>
      (p, p + ((c :: cs).length - rest.length), g) ::
        finditAux f (p + ((c :: cs).length - rest.length)) rest
    | none => finditAux f (p + 1) cs

/-- All matches of the data-URI pattern with absolute offsets. -/
def finditer (s : List Char) : List (Nat × Nat × List Char) :=
  finditAux s.length 0 s

/-- The replacement text spliced in for one matched image: build the
surrounding context from the original markdown offsets, obtain the description
from the client (an exception or an absent client yields the empty string),
and format the result as a quoted image block, falling back to the fixed
unavailable-description block when the description is empty. -/
def image_description_block (markdown : List Char) (client : Option DescribeFn)
    (start_idx end_idx : Nat) (group : List Char) : List Char :=
  let ctx := build_surrounding_context markdown start_idx end_idx
    CONTEXT_BEFORE_CHARS CONTEXT_AFTER_CHARS MAX_CONTEXT_CHARS
  let desc : List Char :=
    match client with
    | some f => match f group ctx with | some d => d | none => []
    | none => []
  if desc.isEmpty then "> Image: [description unavailable]\n\n".toList
  else "> Image: ".toList ++ desc ++ "\n\n".toList

/-- The splice loop of replace_images_with_text: for each match append the
slice of the markdown between the previous match end and this match start,
then the replacement block; finally append the tail slice. -/
def replaceLoop (markdown : List Char) (client : Option DescribeFn) :
    List (Nat × Nat × List Char) → Nat → List Char
  | [], last => markdown.drop last
  | (st, en, g) :: ms, last =>
    pySlice markdown last st ++ image_description_block markdown client st en g ++
      replaceLoop markdown client ms en

/-- replace_images_with_text: when no data-URI match exists return the
markdown unchanged, otherwise splice a description block over every match. -/
def replace_images_with_text (markdown : List Char) (client : Option DescribeFn) :
    List Char :=
  if (finditer markdown).isEmpty then markdown
  else replaceLoop markdown client (finditer markdown) 0

/-- Specification-side rewriting pass (stated from the documented behavior,
to be compared with the index-splicing implementation): walk the markdown
directly, copying characters outside matches verbatim and emitting the
description block over each match. -/
def scanReplAux (markdown : List Char) (client : Option DescribeFn) :
    Nat → Nat → List Char → List Char
  | 0, _, s => s
  | _ + 1, _, [] => []
  | f + 1, p, c :: cs =>
    match matchDataURIAt (c :: cs) with
    | some (rest, g) =>
      image_description_block markdown client p (p + ((c :: cs).length - rest.length)) g ++
        scanReplAux markdown client f (p + ((c :: cs).length - rest.length)) rest
    | none => c :: scanReplAux markdown client f (p + 1) cs

/-- Direct rewriting form of the image-replacement pass. -/
def scanRepl (markdown : List Char) (client : Option DescribeFn) : List Char :=
  scanReplAux markdown client markdown.length 0 markdown

/-! ### Image size capper (pdf_to_markdown_full_ocr.py) -/

/-- Hard cap per page payload. -/
def MAX_IMAGE_BYTES : Nat := 20 * 1024 ^ 2

/-- Starting JPEG quality for the descending attempts. -/
def JPEG_QUALITY_START : Int := 85

/-- Lowest JPEG quality before downscaling. -/
def MIN_JPEG_QUALITY : Int := 35

/-- Minimum edge length when downscaling. -/
def DOWNSCALE_FLOOR_PX : Nat := 720

/-- An in-memory raster image: dimensions, color mode, and an abstract token
standing for the pixel data. -/
structure Img where
  width : Nat
  height : Nat
  mode : String
  content : Nat
deriving DecidableEq

/-- The external image library operations the capper calls, kept abstract:
encoders return byte strings (modelled as lists of bytes) and the content
transformations return the abstract pixel token of the produced image. -/
structure PILOps where
  pngEncode : Img → List Nat
  jpegEncode : Img → Int → List Nat
  resizeContent : Img → Nat → Nat → Nat
  pasteMaskContent : Img → Nat
  pastePlainContent : Img → Nat
  convertRGBContent : Img → Nat

/-- _ensure_rgb: composite alpha or palette modes onto a white background
(using the alpha channel as mask when one exists), convert any other non-RGB
mode, and pass RGB images through unchanged. -/
def ensure_rgb (ops : PILOps) (img : Img) : Img :=
  if img.mode = "RGBA" || img.mode = "LA" || img.mode = "P" then
    if img.mode = "RGBA" || img.mode = "LA" then
      { width := img.width, height := img.height, mode := "RGB",
        content := ops.pasteMaskContent img }
    else
      { width := img.width, height := img.height, mode := "RGB",
        content := ops.pastePlainContent img }
  else if img.mode = "RGB" then img
  else { width := img.width, height := img.height, mode := "RGB",
         content := ops.convertRGBContent img }

/-- The descending quality sequence range(q_start, q_min - 1, -10); the fuel
argument of the auxiliary only makes the recursion structural. -/
def qRangeAux : Nat → Int → Int → List Int
  | 0, _, _ => []
  | f + 1, q, qmin => if qmin ≤ q then q :: qRangeAux f (q - 10) qmin else []

/-- The quality steps tried by the lossy stage. -/
def qRange (q_start q_min : Int) : List Int :=
  qRangeAux ((q_start - q_min).toNat + 1) q_start q_min

/-- Outcome of the descending-quality loop: either the first encoding that
fits the budget, or no fit together with the bytes of the last attempted
encoding (none when no quality was attempted at all, in which case the
source would fault on an unbound variable). -/
inductive LossyOutcome where
  | fit (data : List Nat)
  | nofit (last : Option (List Nat))
deriving DecidableEq

/-- The descending-quality JPEG loop of the capper. -/
def lossyLoop (ops : PILOps) (max_bytes : Nat) (img : Img) : List Int → LossyOutcome
  | [] => LossyOutcome.nofit none
  | q :: qs =>
    let data := ops.jpegEncode img q
    if data.length ≤ max_bytes then LossyOutcome.fit data
    else
      match lossyLoop ops max_bytes img qs with
      | LossyOutcome.fit d => LossyOutcome.fit d
      | LossyOutcome.nofit none => LossyOutcome.nofit (some data)
      | LossyOutcome.nofit (some d) => LossyOutcome.nofit (some d)

/-- Which step of the fallback chain produced the returned payload. -/
inductive CapBranch where
  | png
  | jpegStep
  | downscale
deriving DecidableEq

/-- The downscale factor: the square root of the ratio of budget to the size
of the last attempted payload, clamped below at one fifth.  The float
arithmetic of the source is modelled over the reals. -/
noncomputable def downscale_scale (max_bytes last_len : Nat) : ℝ :=
  max (Real.sqrt ((max_bytes : ℝ) / (last_len : ℝ))) 0.2

/-- The downscaled width: the scaled width truncated to an integer (the floor,
since the scaled value is nonnegative), floored at the configured minimum
edge length. -/
noncomputable def downscale_w (jpeg_img : Img) (max_bytes last_len downscale_floor_px : Nat) : Nat :=
  max downscale_floor_px (⌊(jpeg_img.width : ℝ) * downscale_scale max_bytes last_len⌋).toNat

/-- The downscaled height, analogous to the width. -/
noncomputable def downscale_h (jpeg_img : Img) (max_bytes last_len downscale_floor_px : Nat) : Nat :=
  max downscale_floor_px (⌊(jpeg_img.height : ℝ) * downscale_scale max_bytes last_len⌋).toNat

/-- image_bytes_with_size_cap: try lossless PNG first and return it when it
fits; otherwise convert for JPEG and descend through the quality steps,
returning the first fit; otherwise downscale once by the square root of the
byte ratio (clamped below at one fifth), floor both dimensions at the
configured minimum edge, re-encode once, and return that payload regardless
of its size.  The result is none only in the unreachable case of an empty
quality range, where the source faults on an unbound variable. -/
noncomputable def image_bytes_with_size_cap (ops : PILOps) (pil_img : Img)
    (max_bytes : Nat) (q_start q_min : Int) (downscale_floor_px : Nat) :
    Option (List Nat × String × CapBranch) :=
  let png_data := ops.pngEncode pil_img
  if png_data.length ≤ max_bytes then some (png_data, "image/png", CapBranch.png)
  else
    let jpeg_img := ensure_rgb ops pil_img
    match lossyLoop ops max_bytes jpeg_img (qRange q_start q_min) with
    | LossyOutcome.fit data => some (data, "image/jpeg", CapBranch.jpegStep)
    | LossyOutcome.nofit none => none
    | LossyOutcome.nofit (some data) =>
      let new_w := downscale_w jpeg_img max_bytes data.length downscale_floor_px
      let new_h := downscale_h jpeg_img max_bytes data.length downscale_floor_px
      let resized : Img := { width := new_w, height := new_h, mode := jpeg_img.mode,
                             content := ops.resizeContent jpeg_img new_w new_h }
      some (ops.jpegEncode resized (max 70 q_min), "image/jpeg", CapBranch.downscale)

/-! ### Orchestrator (pdf_to_markdown_full_vision) -/

/-- Clamp of the requested start page: one when absent, otherwise at least one. -/
def clampStart (start : Option Int) : Int :=
  match start with
  | none => 1
  | some v => max 1 v

/-- Clamp of the requested end page: the page count when absent, otherwise at
most the page count. -/
def clampEnd (stop : Option Int) (total : Nat) : Int :=
  match stop with
  | none => total
  | some v => min v total

/-- The integers of Python range(a, b). -/
def intRange (a b : Int) : List Int :=
  (List.range (b - a).toNat).map (fun k => a + k)

/-- The fixed placeholder fragment appended when extracting a page fails. -/
def error_placeholder (page_num : Int) : List Char :=
  ("## Page " ++ toString page_num ++
    "\n\n_Error extracting this page. Try lowering DPI or tokens and re-run._").toList

/-- The fragment produced for one page: the extracted markdown (prefixed with
the page heading and stripped when headings are enabled), or the fixed
placeholder when rendering, encoding or the external call raises. -/
def page_fragment (extract : Int → Except Unit (List Char)) (add_page_headings : Bool)
    (page_num : Int) : List Char :=
  match extract page_num with
  | Except.ok md =>
    if add_page_headings then
      pyStrip (("## Page " ++ toString page_num ++ "\n\n").toList ++ md)
    else md
  | Except.error _ => error_placeholder page_num

/-- The page loop: process each zero-based index in order, appending one
fragment per page to the accumulating section list. -/
def runPages (extract : Int → Except Unit (List Char)) (add_page_headings : Bool) :
    List Int → List (List Char) → List (List Char)
  | [], acc => acc
  | i :: rest, acc =>
    runPages extract add_page_headings rest (acc ++ [page_fragment extract add_page_headings (i + 1)])

/-- The section list built by the orchestrator for the effective page range. -/
def sectionsFor (page_count : Nat) (extract : Int → Except Unit (List Char))
    (start stop : Option Int) (add_page_headings : Bool) : List (List Char) :=
  runPages extract add_page_headings
    (intRange (clampStart start - 1) (clampEnd stop page_count)) []

/-- One pass of Python replace over the three-newline pattern: every
non-overlapping occurrence, left to right, becomes two newlines. -/
def replaceTriple : List Char → List Char
  | [] => []
  | [c] => [c]
  | [c1, c2] => [c1, c2]
  | c1 :: c2 :: c3 :: rest =>
    if c1 = '\n' ∧ c2 = '\n' ∧ c3 = '\n' then '\n' :: '\n' :: replaceTriple rest
    else c1 :: replaceTriple (c2 :: c3 :: rest)

/-- Whether the string still contains three consecutive newlines. -/
def containsTriple : List Char → Bool
  | c1 :: c2 :: c3 :: rest =>
    (c1 = '\n' && c2 = '\n' && c3 = '\n') || containsTriple (c2 :: c3 :: rest)
  | _ => false

/-- Fuel-indexed form of the normalization while-loop; each iteration strictly
shrinks the string, so the length of the input is always enough fuel. -/
def collapseBlankAux : Nat → List Char → List Char
  | 0, s => s
  | f + 1, s => if containsTriple s then collapseBlankAux f (replaceTriple s) else s

/-- The final blank-line normalization pass: repeatedly replace three
consecutive newlines by two until none remain. -/
def collapse_blank_lines (s : List Char) : List Char :=
  collapseBlankAux s.length s

/-- The message of the error raised for an empty effective page range. -/
def rangeErrMsg (s e : Int) (total : Nat) : List Char :=
  ("Invalid page range: start=" ++ toString s ++ " end=" ++ toString e ++
    " (total=" ++ toString total ++ ")").toList

/-- Observable outcome of one whole run: the final markdown or the raised
error, the pages the loop attempted, and whether the document was closed. -/
structure RunResult where
  outcome : Except (List Char) (List Char)
  processed : List Int
  docClosed : Bool

/-- pdf_to_markdown_full_vision: clamp the requested range, abort (closing the
document first) when the clamped start exceeds the clamped end, otherwise run
the page loop — converting every per-page failure into the placeholder
fragment — join the fragments, strip, and normalize blank lines.  The page
count stands for the opened document and extract for the combination of
rendering, capping and the external model call on one page. -/
def pdf_to_markdown_full_vision (page_count : Nat)
    (extract : Int → Except Unit (List Char)) (start stop : Option Int)
    (add_page_headings : Bool) : RunResult :=
  let s := clampStart start
  let e := clampEnd stop page_count
  if e < s then
    { outcome := Except.error (rangeErrMsg s e page_count), processed := [],
      docClosed := true }
  else
    let secs := runPages extract add_page_headings (intRange (s - 1) e) []
    let final := collapse_blank_lines (pyStrip (joinSep ("\n\n".toList) secs))
    { outcome := Except.ok final,
      processed := (intRange (s - 1) e).map (fun i => i + 1),
      docClosed := true }

/-! ### Relational specification of the regex substitution scan

ReSubSpec M repl s out holds exactly when out is obtained from s by the
left-to-right scan of the regex sub function with matcher M: at a position
where M fails the character is kept, at a position where M succeeds the
replacement is emitted and the scan resumes after the consumed text.  In
particular every match found by the scan is replaced by the placeholder. -/
inductive ReSubSpec (M : List Char → Option (List Char × List Char)) (repl : List Char) :
    List Char → List Char → Prop where
  | nil : ReSubSpec M repl [] []
  | keep {c : Char} {cs out : List Char} :
      M (c :: cs) = none → ReSubSpec M repl cs out → ReSubSpec M repl (c :: cs) (c :: out)
  | rep {c : Char} {cs rest g out : List Char} :
      M (c :: cs) = some (rest, g) → ReSubSpec M repl rest out →
      ReSubSpec M repl (c :: cs) (repl ++ out)

/-! ### Concrete fixtures for witnesses and counterexamples -/

/-- A buffer whose before-window holds a plain image link directly preceded by
a bang and directly followed by a parenthesized data URI; the span covers the
final character. -/
def leakBuf : List Char := "!![a](b)(data:image/p;base64,A)M".toList

/-- A buffer of 134 image links with a one-character span in the middle; the
placeholder expansion pushes the collapsed context past the default maximum. -/
def longBuf : List Char :=
  (List.replicate 67 ("![](x)".toList)).flatten ++ "M".toList ++
    (List.replicate 67 ("![](x)".toList)).flatten

/-- Image operations whose PNG encoding is two bytes long. -/
def opsSmallPng : PILOps :=
  { pngEncode := fun _ => [7, 7]
    jpegEncode := fun _ _ => [1, 1, 1, 1]
    resizeContent := fun _ _ _ => 0
    pasteMaskContent := fun _ => 0
    pastePlainContent := fun _ => 0
    convertRGBContent := fun _ => 0 }

/-- Image operations whose PNG encoding is eight bytes and whose JPEG
encodings are four bytes at every quality. -/
def opsAllBig : PILOps :=
  { pngEncode := fun _ => [9, 9, 9, 9, 9, 9, 9, 9]
    jpegEncode := fun _ _ => [1, 2, 3, 4]
    resizeContent := fun _ _ _ => 0
    pasteMaskContent := fun _ => 0
    pastePlainContent := fun _ => 0
    convertRGBContent := fun _ => 0 }

/-- A small RGB test bitmap. -/
def imgFix : Img := { width := 10, height := 10, mode := "RGB", content := 0 }



/-! ### Theorems -/

theorem replaceTriple_length_le : ∀ s : List Char, (replaceTriple s).length ≤ s.length
  | [] => by simp [replaceTriple]
  | [c] => by simp [replaceTriple]
  | [c1, c2] => by simp [replaceTriple]
  | c1 :: c2 :: c3 :: rest => by
    by_cases h : c1 = '\n' ∧ c2 = '\n' ∧ c3 = '\n'
    · have ih := replaceTriple_length_le rest
      simp only [replaceTriple, if_pos h, List.length_cons]
      omega
    · have ih := replaceTriple_length_le (c2 :: c3 :: rest)
      simp only [replaceTriple, if_neg h, List.length_cons] at ih ⊢
      omega

theorem replaceTriple_shrink : ∀ s : List Char, containsTriple s = true →
    (replaceTriple s).length < s.length
  | [], h => by simp [containsTriple] at h
  | [c], h => by simp [containsTriple] at h
  | [c1, c2], h => by simp [containsTriple] at h
  | c1 :: c2 :: c3 :: rest, h => by
    by_cases hc : c1 = '\n' ∧ c2 = '\n' ∧ c3 = '\n'
    · have hle := replaceTriple_length_le rest
      simp only [replaceTriple, if_pos hc, List.length_cons]
      omega
    · have h' : containsTriple (c2 :: c3 :: rest) = true := by
        simp only [containsTriple, Bool.or_eq_true, Bool.and_eq_true, decide_eq_true_eq] at h
        rcases h with ⟨⟨h1, h2⟩, h3⟩ | h'
        · exact absurd ⟨h1, h2, h3⟩ hc
        · exact h'
      have ih := replaceTriple_shrink (c2 :: c3 :: rest) h'
      simp only [replaceTriple, if_neg hc, List.length_cons] at ih ⊢
      omega

theorem collapseBlankAux_no : ∀ (f : Nat) (s : List Char), s.length ≤ f →
    containsTriple (collapseBlankAux f s) = false
  | 0, s, h => by
    have : s = [] := List.eq_nil_of_length_eq_zero (Nat.le_zero.mp h)
    subst this
    simp [collapseBlankAux, containsTriple]
  | f + 1, s, h => by
    by_cases hc : containsTriple s = true
    · have hlt := replaceTriple_shrink s hc
      have : (replaceTriple s).length ≤ f := by omega
      simp only [collapseBlankAux, if_pos hc]
      exact collapseBlankAux_no f (replaceTriple s) this
    · simp only [collapseBlankAux, if_neg hc]
      exact Bool.not_eq_true _ ▸ hc

theorem collapse_blank_lines_of_no {s : List Char} (h : containsTriple s = false) :
    collapse_blank_lines s = s := by
  unfold collapse_blank_lines
  cases hl : s.length with
  | zero => rfl
  | succ n => simp [collapseBlankAux, h]

/-- C6: the whole-document blank-line normalization pass (the fixpoint loop
replacing three consecutive newlines with two until none remain) is
idempotent: applying it twice yields the same result as applying it once. -/
theorem collapse_blank_lines_idempotent (s : List Char) :
    collapse_blank_lines (collapse_blank_lines s) = collapse_blank_lines s :=
  collapse_blank_lines_of_no (collapseBlankAux_no s.length s le_rfl)

theorem lossyLoop_fit_le (ops : PILOps) (mb : Nat) (img : Img) :
    ∀ (l : List Int) (d : List Nat),
      lossyLoop ops mb img l = LossyOutcome.fit d → d.length ≤ mb
  | [], d, h => by simp [lossyLoop] at h
  | q :: qs, d, h => by
    by_cases hq : (ops.jpegEncode img q).length ≤ mb
    · simp only [lossyLoop, if_pos hq, LossyOutcome.fit.injEq] at h
      exact h ▸ hq
    · simp only [lossyLoop, if_neg hq] at h
      cases hrec : lossyLoop ops mb img qs with
      | fit d' =>
        rw [hrec] at h
        simp only [LossyOutcome.fit.injEq] at h
        exact h ▸ lossyLoop_fit_le ops mb img qs d' hrec
      | nofit o =>
        rw [hrec] at h
        cases o <;> simp at h

theorem lossyLoop_nofit_of_all (ops : PILOps) (mb : Nat) (img : Img) :
    ∀ (l : List Int) (h : l ≠ []) (_ : ∀ q ∈ l, mb < (ops.jpegEncode img q).length),
      lossyLoop ops mb img l = LossyOutcome.nofit (some (ops.jpegEncode img (l.getLast h)))
  | [], h, _ => absurd rfl h
  | [q], _, hall => by
    have hq : ¬ (ops.jpegEncode img q).length ≤ mb := not_le.mpr (hall q (by simp))
    simp [lossyLoop, hq]
  | q :: q' :: qs, _, hall => by
    have hq : ¬ (ops.jpegEncode img q).length ≤ mb := not_le.mpr (hall q (by simp))
    have ih := lossyLoop_nofit_of_all ops mb img (q' :: qs) (by simp)
      (fun x hx => hall x (List.mem_cons_of_mem q hx))
    have step : lossyLoop ops mb img (q :: q' :: qs) =
        match lossyLoop ops mb img (q' :: qs) with
        | LossyOutcome.fit d => LossyOutcome.fit d
        | LossyOutcome.nofit none => LossyOutcome.nofit (some (ops.jpegEncode img q))
        | LossyOutcome.nofit (some d) => LossyOutcome.nofit (some d) := by
      simp only [lossyLoop, if_neg hq]
    rw [step, ih]
    rfl

/-- C1: the payload returned by the capper either fits the budget or comes
from the final downscale step; the lossless branch and the quality-descending
lossy branch only ever return payloads within the budget. -/
theorem cap_within_budget_or_downscale (ops : PILOps) (pil_img : Img) (mb : Nat)
    (qs qm : Int) (fl : Nat) (p : List Nat) (m : String) (br : CapBranch)
    (h : image_bytes_with_size_cap ops pil_img mb qs qm fl = some (p, m, br)) :
    (p.length ≤ mb ∨ br = CapBranch.downscale) ∧
    ((br = CapBranch.png ∨ br = CapBranch.jpegStep) → p.length ≤ mb) := by
  unfold image_bytes_with_size_cap at h
  by_cases hpng : (ops.pngEncode pil_img).length ≤ mb
  · simp only [if_pos hpng, Option.some.injEq, Prod.mk.injEq] at h
    obtain ⟨h1, _, _⟩ := h
    exact ⟨Or.inl (h1 ▸ hpng), fun _ => h1 ▸ hpng⟩
  · simp only [if_neg hpng] at h
    cases hll : lossyLoop ops mb (ensure_rgb ops pil_img) (qRange qs qm) with
    | fit d =>
      rw [hll] at h
      simp only [Option.some.injEq, Prod.mk.injEq] at h
      obtain ⟨h1, _, _⟩ := h
      have := lossyLoop_fit_le ops mb (ensure_rgb ops pil_img) (qRange qs qm) d hll
      exact ⟨Or.inl (h1 ▸ this), fun _ => h1 ▸ this⟩
    | nofit o =>
      cases o with
      | none => rw [hll] at h; simp at h
      | some d =>
        rw [hll] at h
        simp only [Option.some.injEq, Prod.mk.injEq] at h
        obtain ⟨_, _, h3⟩ := h
        refine ⟨Or.inr h3.symm, fun hbr => ?_⟩
        rcases hbr with hbr | hbr <;> rw [← h3] at hbr <;> simp at hbr

/-- C1 witness: a bitmap whose PNG encoding (two bytes) fits a five-byte
budget is returned by the lossless branch within budget. -/
theorem cap_within_budget_or_downscale_witness :
    image_bytes_with_size_cap opsSmallPng imgFix 5 85 35 720 =
      some ([7, 7], "image/png", CapBranch.png) ∧
    ((([7, 7] : List Nat).length ≤ 5 ∨ CapBranch.png = CapBranch.downscale) ∧
     ((CapBranch.png = CapBranch.png ∨ CapBranch.png = CapBranch.jpegStep) →
       ([7, 7] : List Nat).length ≤ 5)) := by
  have h : image_bytes_with_size_cap opsSmallPng imgFix 5 85 35 720 =
      some ([7, 7], "image/png", CapBranch.png) := by
    unfold image_bytes_with_size_cap
    rfl
  exact ⟨h, cap_within_budget_or_downscale opsSmallPng imgFix 5 85 35 720 _ _ _ h⟩

/-- C2: when the lossless PNG encoding fits the budget, the capper returns
exactly that encoding, byte-identical, with the PNG MIME type, from the
lossless branch (so no lossy encoding is attempted). -/
theorem cap_lossless_when_fits (ops : PILOps) (pil_img : Img) (mb : Nat)
    (qs qm : Int) (fl : Nat) (h : (ops.pngEncode pil_img).length ≤ mb) :
    image_bytes_with_size_cap ops pil_img mb qs qm fl =
      some (ops.pngEncode pil_img, "image/png", CapBranch.png) := by
  unfold image_bytes_with_size_cap
  simp [h]

/-- C2 witness: with a seven-byte budget the two-byte PNG encoding is
returned unchanged. -/
theorem cap_lossless_when_fits_witness :
    (opsSmallPng.pngEncode imgFix).length ≤ 7 ∧
    image_bytes_with_size_cap opsSmallPng imgFix 7 85 35 720 =
      some (opsSmallPng.pngEncode imgFix, "image/png", CapBranch.png) :=
  ⟨by decide, cap_lossless_when_fits opsSmallPng imgFix 7 85 35 720 (by decide)⟩

/-- C7: when the lossless encoding and every quality step exceed the budget,
the capper performs exactly one resize — the returned payload is the single
re-encode of the once-resized image — with the scale factor equal to the
square root of budget over the last lossy payload size clamped below at one
fifth, and with both output dimensions floored at the configured minimum
edge length. -/
theorem cap_downscale_once (ops : PILOps) (pil_img : Img) (mb : Nat) (qs qm : Int) (fl : Nat)
    (h1 : mb < (ops.pngEncode pil_img).length)
    (h2 : qRange qs qm ≠ [])
    (h3 : ∀ q ∈ qRange qs qm, mb < (ops.jpegEncode (ensure_rgb ops pil_img) q).length) :
    ∃ last_len,
      last_len = (ops.jpegEncode (ensure_rgb ops pil_img) ((qRange qs qm).getLast h2)).length ∧
      image_bytes_with_size_cap ops pil_img mb qs qm fl =
        some (ops.jpegEncode
          { width := downscale_w (ensure_rgb ops pil_img) mb last_len fl,
            height := downscale_h (ensure_rgb ops pil_img) mb last_len fl,
            mode := (ensure_rgb ops pil_img).mode,
            content := ops.resizeContent (ensure_rgb ops pil_img)
              (downscale_w (ensure_rgb ops pil_img) mb last_len fl)
              (downscale_h (ensure_rgb ops pil_img) mb last_len fl) }
          (max 70 qm), "image/jpeg", CapBranch.downscale) ∧
      downscale_scale mb last_len = max (Real.sqrt ((mb : ℝ) / (last_len : ℝ))) 0.2 ∧
      fl ≤ downscale_w (ensure_rgb ops pil_img) mb last_len fl ∧
      fl ≤ downscale_h (ensure_rgb ops pil_img) mb last_len fl := by
  have hloop := lossyLoop_nofit_of_all ops mb (ensure_rgb ops pil_img) (qRange qs qm) h2 h3
  refine ⟨_, rfl, ?_, rfl, Nat.le_max_left _ _, Nat.le_max_left _ _⟩
  unfold image_bytes_with_size_cap
  rw [if_neg (not_le.mpr h1)]
  dsimp only
  rw [hloop]

/-- C7 witness: an eight-byte PNG and four-byte JPEGs against a three-byte
budget reach the downscale branch, whose dimensions respect the floor. -/
theorem cap_downscale_once_witness :
    (3 < (opsAllBig.pngEncode imgFix).length ∧
      qRange 85 35 ≠ [] ∧
      ∀ q ∈ qRange 85 35, 3 < (opsAllBig.jpegEncode (ensure_rgb opsAllBig imgFix) q).length) ∧
    ∃ last_len,
      last_len = (opsAllBig.jpegEncode (ensure_rgb opsAllBig imgFix)
        ((qRange 85 35).getLast (by decide))).length ∧
      image_bytes_with_size_cap opsAllBig imgFix 3 85 35 720 =
        some (opsAllBig.jpegEncode
          { width := downscale_w (ensure_rgb opsAllBig imgFix) 3 last_len 720,
            height := downscale_h (ensure_rgb opsAllBig imgFix) 3 last_len 720,
            mode := (ensure_rgb opsAllBig imgFix).mode,
            content := opsAllBig.resizeContent (ensure_rgb opsAllBig imgFix)
              (downscale_w (ensure_rgb opsAllBig imgFix) 3 last_len 720)
              (downscale_h (ensure_rgb opsAllBig imgFix) 3 last_len 720) }
          (max 70 35), "image/jpeg", CapBranch.downscale) ∧
      downscale_scale 3 last_len = max (Real.sqrt ((3 : ℝ) / (last_len : ℝ))) 0.2 ∧
      720 ≤ downscale_w (ensure_rgb opsAllBig imgFix) 3 last_len 720 ∧
      720 ≤ downscale_h (ensure_rgb opsAllBig imgFix) 3 last_len 720 :=
  ⟨⟨by decide, by decide, by decide⟩,
    cap_downscale_once opsAllBig imgFix 3 85 35 720 (by decide) (by decide) (by decide)⟩

theorem runPages_eq_map (extract : Int → Except Unit (List Char)) (hd : Bool) :
    ∀ (l : List Int) (acc : List (List Char)),
      runPages extract hd l acc = acc ++ l.map (fun i => page_fragment extract hd (i + 1))
  | [], acc => by simp [runPages]
  | i :: rest, acc => by
    rw [runPages, runPages_eq_map extract hd rest]
    simp

/-- C5: the section list holds exactly one fragment per requested page, in
original page order, and a page whose extraction raises yields exactly the
fixed placeholder for that page number while the loop continues with the next
page (the map covers every remaining page). -/
theorem sections_one_fragment_per_page (page_count : Nat)
    (extract : Int → Except Unit (List Char)) (start stop : Option Int)
    (add_page_headings : Bool) :
    sectionsFor page_count extract start stop add_page_headings =
      (intRange (clampStart start - 1) (clampEnd stop page_count)).map
        (fun i => page_fragment extract add_page_headings (i + 1)) ∧
    ∀ n, extract n = Except.error () →
      page_fragment extract add_page_headings n = error_placeholder n := by
  constructor
  · rw [sectionsFor, runPages_eq_map]
    simp
  · intro n hn
    simp [page_fragment, hn]

/-- C5 witness: with an extractor that raises on every page, page 2 of a
two-page run yields exactly the placeholder fragment. -/
theorem sections_one_fragment_per_page_witness :
    (fun _ => Except.error () : Int → Except Unit (List Char)) 2 = Except.error () ∧
    page_fragment (fun _ => Except.error ()) true 2 = error_placeholder 2 :=
  ⟨rfl, (sections_one_fragment_per_page 2 (fun _ => Except.error ()) none none true).2 2 rfl⟩

/-- C9: when the clamped start exceeds the clamped end the run aborts with
the range error — before any page is attempted and with the document closed —
and otherwise the run always produces output: per-page processing never
raises out of the run. -/
theorem run_aborts_on_empty_range (page_count : Nat)
    (extract : Int → Except Unit (List Char)) (start stop : Option Int)
    (add_page_headings : Bool) :
    (clampEnd stop page_count < clampStart start →
      pdf_to_markdown_full_vision page_count extract start stop add_page_headings =
        { outcome := Except.error
            (rangeErrMsg (clampStart start) (clampEnd stop page_count) page_count),
          processed := [], docClosed := true }) ∧
    (clampStart start ≤ clampEnd stop page_count →
      pdf_to_markdown_full_vision page_count extract start stop add_page_headings =
        { outcome := Except.ok (collapse_blank_lines (pyStrip (joinSep ("\n\n".toList)
            (sectionsFor page_count extract start stop add_page_headings)))),
          processed := (intRange (clampStart start - 1) (clampEnd stop page_count)).map
            (fun i => i + 1),
          docClosed := true }) := by
  constructor
  · intro h
    unfold pdf_to_markdown_full_vision
    rw [if_pos h]
  · intro h
    unfold pdf_to_markdown_full_vision
    rw [if_neg (not_lt.mpr h)]
    rfl

/-- C9 witness: requesting start page 5 of a four-page document aborts with
the range error, no page processed, document closed. -/
theorem run_aborts_on_empty_range_witness :
    clampEnd none 4 < clampStart (some 5) ∧
    pdf_to_markdown_full_vision 4 (fun _ => Except.ok ("x".toList)) (some 5) none true =
      { outcome := Except.error (rangeErrMsg (clampStart (some 5)) (clampEnd none 4) 4),
        processed := [], docClosed := true } :=
  ⟨by decide,
    (run_aborts_on_empty_range 4 (fun _ => Except.ok ("x".toList)) (some 5) none true).1
      (by decide)⟩

theorem pyStartsWith_self : ∀ p : List Char, pyStartsWith p p = true
  | [] => rfl
  | c :: cs => by simp [pyStartsWith, pyStartsWith_self cs]

theorem pyStartsWith_append : ∀ p x : List Char, pyStartsWith p (p ++ x) = true
  | [], _ => rfl
  | c :: cs, x => by simp [pyStartsWith, pyStartsWith_append cs x]

theorem pyRstrip_append (l r : List Char) :
    pyRstrip (l ++ r) = if (pyRstrip r).isEmpty then pyRstrip l else l ++ pyRstrip r := by
  unfold pyRstrip
  rw [List.reverse_append, List.dropWhile_append]
  by_cases h : (r.reverse.dropWhile isPySpace).isEmpty
  · rw [if_pos h, if_pos]
    simp only [List.isEmpty_iff] at h ⊢
    simp [h]
  · rw [if_neg h, if_neg]
    · simp
    · simp only [List.isEmpty_iff] at h ⊢
      simpa using h

theorem pyStartsWith_pyStrip_of (c : Char) (t rest : List Char)
    (hc : isPySpace c = false) (hr : pyRstrip (c :: t) = c :: t) :
    pyStartsWith (c :: t) (pyStrip ((c :: t) ++ rest)) = true := by
  unfold pyStrip
  rw [List.cons_append, List.dropWhile_cons, hc]
  simp only [Bool.false_eq_true, if_false]
  rw [← List.cons_append, pyRstrip_append]
  by_cases h : (pyRstrip rest).isEmpty
  · rw [if_pos h, hr]
    exact pyStartsWith_self _
  · rw [if_neg h]
    exact pyStartsWith_append _ _

/-- C8: requesting pages 2 to 3 of a four-page document yields exactly two
fragments; with headings enabled the first begins with the page-2 heading and
the second with the page-3 heading, whether extraction succeeds or falls back
to the placeholder. -/
theorem four_page_doc_pages_two_three (extract : Int → Except Unit (List Char)) :
    (sectionsFor 4 extract (some 2) (some 3) true).length = 2 ∧
    pyStartsWith ("## Page 2".toList)
      ((sectionsFor 4 extract (some 2) (some 3) true).headD []) = true ∧
    pyStartsWith ("## Page 3".toList)
      ((sectionsFor 4 extract (some 2) (some 3) true).getD 1 []) = true := by
  have hrange : intRange (clampStart (some 2) - 1) (clampEnd (some 3) 4) = [1, 2] := by decide
  have hsec : sectionsFor 4 extract (some 2) (some 3) true =
      [page_fragment extract true 2, page_fragment extract true 3] := by
    rw [sectionsFor, runPages_eq_map, hrange]
    norm_num
  have hhead : (sectionsFor 4 extract (some 2) (some 3) true).headD [] =
      page_fragment extract true 2 := by rw [hsec]; rfl
  have hsnd : (sectionsFor 4 extract (some 2) (some 3) true).getD 1 [] =
      page_fragment extract true 3 := by rw [hsec]; rfl
  refine ⟨by rw [hsec]; rfl, ?_, ?_⟩
  · rw [hhead]
    cases hex : extract 2 with
    | error e =>
      simp only [page_fragment, hex]
      decide
    | ok md =>
      simp only [page_fragment, hex, if_true]
      have hstr : ("## Page " ++ toString (2 : Int) ++ "\n\n").toList ++ md =
          ("## Page 2".toList) ++ ("\n\n".toList ++ md) := by
        rw [← List.append_assoc]
        congr 1
      rw [hstr]
      exact pyStartsWith_pyStrip_of '#' ("# Page 2".toList) ("\n\n".toList ++ md)
        (by decide) (by decide)
  · rw [hsnd]
    cases hex : extract 3 with
    | error e =>
      simp only [page_fragment, hex]
      decide
    | ok md =>
      simp only [page_fragment, hex, if_true]
      have hstr : ("## Page " ++ toString (3 : Int) ++ "\n\n").toList ++ md =
          ("## Page 3".toList) ++ ("\n\n".toList ++ md) := by
        rw [← List.append_assoc]
        congr 1
      rw [hstr]
      exact pyStartsWith_pyStrip_of '#' ("# Page 3".toList) ("\n\n".toList ++ md)
        (by decide) (by decide)

/-- C3 (amended): the context string is at most one character longer than the
configured maximum — at most the maximum when no truncation occurs, and
exactly the maximum plus the one-character ellipsis marker in the truncation
case. -/
theorem build_surrounding_context_le (markdown : List Char) (s e cb ca mx : Nat)
    (_h1 : s ≤ e) (_h2 : e ≤ markdown.length) :
    (build_surrounding_context markdown s e cb ca mx).length ≤ mx + 1 := by
  unfold build_surrounding_context
  dsimp only
  set ctx := collapse_whitespace (strip_images_from_text (pySlice markdown (s - cb) s) ++
    " [IMAGE LOCATION] ".toList ++
    strip_images_from_text (pySlice markdown e (min markdown.length (e + ca)))) with hctx
  by_cases h : mx < ctx.length
  · rw [if_pos h, List.length_append, List.length_take]
    have hmin : min mx ctx.length = mx := Nat.min_eq_left (le_of_lt h)
    have hell : ("…".toList).length = 1 := rfl
    omega
  · rw [if_neg h]
    omega

/-- C3 witness: a tiny in-bounds span yields a context within the bound. -/
theorem build_surrounding_context_le_witness :
    1 ≤ 1 ∧ 1 ≤ ("ab".toList).length ∧
    (build_surrounding_context ("ab".toList) 1 1 CONTEXT_BEFORE_CHARS CONTEXT_AFTER_CHARS
      MAX_CONTEXT_CHARS).length ≤ MAX_CONTEXT_CHARS + 1 :=
  ⟨le_rfl, by decide,
    build_surrounding_context_le ("ab".toList) 1 1 CONTEXT_BEFORE_CHARS CONTEXT_AFTER_CHARS
      MAX_CONTEXT_CHARS le_rfl (by decide)⟩

set_option maxRecDepth 100000 in
/-- C3 counterexample: with the default configuration, a buffer of image
links around an in-bounds one-character span produces a context of 1001
characters — the truncation appends the ellipsis after cutting at the
maximum, so the output exceeds the configured maximum by one. -/
theorem context_cap_exceeded :
    402 ≤ 403 ∧ 403 ≤ longBuf.length ∧
    MAX_CONTEXT_CHARS <
      (build_surrounding_context longBuf 402 403 CONTEXT_BEFORE_CHARS CONTEXT_AFTER_CHARS
        MAX_CONTEXT_CHARS).length :=
  ⟨by norm_num, by decide, by decide⟩

theorem dropLit_length : ∀ (l s r : List Char), dropLit l s = some r → r.length ≤ s.length
  | [], s, r, h => by
    simp only [dropLit, Option.some.injEq] at h
    exact h ▸ le_rfl
  | _ :: _, [], _, h => by simp [dropLit] at h
  | l :: ls, c :: cs, r, h => by
    by_cases hc : c = l
    · simp only [dropLit, if_pos hc] at h
      have := dropLit_length ls cs r h
      simp only [List.length_cons]
      omega
    · simp [dropLit, hc] at h

theorem matchDataURIAt_shrink (s r g : List Char) (h : matchDataURIAt s = some (r, g)) :
    r.length < s.length := by
  unfold matchDataURIAt at h
  repeat split at h
  all_goals (try (exfalso; simp at h; done))
  rename_i s0 r0 x3 r1 heq1 x2 r2 heq2 x1 r3 heq3 x0 r4 heq4
  dsimp only at h
  split at h
  · exact absurd h (by simp)
  split at h
  · exact absurd h (by simp)
  simp only [Option.some.injEq, Prod.mk.injEq] at h
  obtain ⟨hr, -⟩ := h
  subst hr
  have l0 := (@List.dropWhile_suffix Char r0 (fun c => !(c = ']'))).length_le
  rw [heq1] at l0
  have l2 : r2.length ≤ r1.length := dropLit_length _ _ _ heq2
  have l3 := (@List.dropWhile_suffix Char r2 isTypeChar).length_le
  have l4 : r3.length ≤ (r2.dropWhile isTypeChar).length := dropLit_length _ _ _ heq3
  have l5 := (@List.dropWhile_suffix Char r3 isB64Char).length_le
  rw [heq4] at l5
  simp only [List.length_cons] at l0 l5 ⊢
  omega

theorem matchImageRefAt_shrink (s r g : List Char) (h : matchImageRefAt s = some (r, g)) :
    r.length < s.length := by
  unfold matchImageRefAt at h
  repeat split at h
  all_goals (try (exfalso; simp at h; done))
  rename_i s0 r0 x1 r1 heq1 x0 r2 heq2
  dsimp only at h
  split at h
  · exact absurd h (by simp)
  simp only [Option.some.injEq, Prod.mk.injEq] at h
  obtain ⟨hr, -⟩ := h
  subst hr
  have l0 := (@List.dropWhile_suffix Char r0 (fun c => !(c = ']'))).length_le
  rw [heq1] at l0
  have l1 := (@List.dropWhile_suffix Char r1 (fun c => !(c = ')'))).length_le
  rw [heq2] at l1
  simp only [List.length_cons] at l0 l1 ⊢
  omega

theorem reSubAux_spec (M : List Char → Option (List Char × List Char)) (repl : List Char)
    (hM : ∀ s r g, M s = some (r, g) → r.length < s.length) :
    ∀ (f : Nat) (s : List Char), s.length ≤ f → ReSubSpec M repl s (reSubAux M repl f s)
  | 0, s, h => by
    have : s = [] := List.eq_nil_of_length_eq_zero (Nat.le_zero.mp h)
    subst this
    exact ReSubSpec.nil
  | _ + 1, [], _ => ReSubSpec.nil
  | f + 1, c :: cs, h => by
    cases hm : M (c :: cs) with
    | none =>
      have step : reSubAux M repl (f + 1) (c :: cs) = c :: reSubAux M repl f cs := by
        simp only [reSubAux, hm]
      rw [step]
      exact ReSubSpec.keep hm (reSubAux_spec M repl hM f cs (by
        simp only [List.length_cons] at h; omega))
    | some pr =>
      obtain ⟨rest, g⟩ := pr
      have hlt := hM _ _ _ hm
      have step : reSubAux M repl (f + 1) (c :: cs) = repl ++ reSubAux M repl f rest := by
        simp only [reSubAux, hm]
      rw [step]
      exact ReSubSpec.rep hm (reSubAux_spec M repl hM f rest (by
        simp only [List.length_cons] at h hlt
        omega))

theorem reSub_spec (M : List Char → Option (List Char × List Char)) (repl : List Char)
    (hM : ∀ s r g, M s = some (r, g) → r.length < s.length) (s : List Char) :
    ReSubSpec M repl s (reSub M repl s) :=
  reSubAux_spec M repl hM s.length s le_rfl

/-- C4 (amended): within each context window both substitution passes follow
the left-to-right scan — every data-URI marker match is replaced by the fixed
placeholder and every remaining image-link match by the second placeholder,
with all characters at non-match positions kept verbatim — so the text of
every marker fully matched inside a window (its base64 payload included) is
removed; the output may nevertheless contain a substring matching the
data-URI pattern, newly formed by a placeholder juxtaposed with adjacent
window text (see the counterexample). -/
theorem strip_images_replaces_every_marker (t : List Char) :
    ReSubSpec matchDataURIAt ("[Image]".toList) t
      (reSub matchDataURIAt ("[Image]".toList) t) ∧
    ReSubSpec matchImageRefAt ("[ImageRef]".toList)
      (reSub matchDataURIAt ("[Image]".toList) t) (strip_images_from_text t) :=
  ⟨reSub_spec _ _ (fun s r g h => matchDataURIAt_shrink s r g h) t,
   reSub_spec _ _ (fun s r g h => matchImageRefAt_shrink s r g h) _⟩

set_option maxRecDepth 10000 in
/-- C4 counterexample: a window holding a bang, a plain image link, and a
parenthesized data URI — none of which matches the data-URI pattern — turns
into a string that does contain a data-URI pattern match after the image-link
is replaced by its placeholder, so the output of the context builder is not
free of image-marker syntax. -/
theorem context_window_marker_leak :
    31 ≤ 32 ∧ 32 ≤ leakBuf.length ∧
    containsDataURIMatch (build_surrounding_context leakBuf 31 32 CONTEXT_BEFORE_CHARS
      CONTEXT_AFTER_CHARS MAX_CONTEXT_CHARS) = true :=
  ⟨by norm_num, by decide, by decide⟩

theorem dropLit_suffix : ∀ (l s r : List Char), dropLit l s = some r → r <:+ s
  | [], s, r, h => by
    simp only [dropLit, Option.some.injEq] at h
    exact h ▸ List.suffix_refl s
  | _ :: _, [], _, h => by simp [dropLit] at h
  | l :: ls, c :: cs, r, h => by
    by_cases hc : c = l
    · simp only [dropLit, if_pos hc] at h
      exact (dropLit_suffix ls cs r h).trans (List.suffix_cons c cs)
    · simp [dropLit, hc] at h

theorem matchDataURIAt_suffix (s r g : List Char) (h : matchDataURIAt s = some (r, g)) :
    r <:+ s := by
  unfold matchDataURIAt at h
  repeat split at h
  all_goals (try (exfalso; simp at h; done))
  rename_i s0 r0 x3 r1 heq1 x2 r2 heq2 x1 r3 heq3 x0 r4 heq4
  dsimp only at h
  split at h
  · exact absurd h (by simp)
  split at h
  · exact absurd h (by simp)
  simp only [Option.some.injEq, Prod.mk.injEq] at h
  obtain ⟨hr, -⟩ := h
  subst hr
  have s5 : (')' :: r4) <:+ r3 := heq4 ▸ @List.dropWhile_suffix Char r3 isB64Char
  have s4 : r4 <:+ r3 := (List.suffix_cons ')' r4).trans s5
  have s3 : r3 <:+ r2.dropWhile isTypeChar := dropLit_suffix _ _ _ heq3
  have s3b : r2.dropWhile isTypeChar <:+ r2 := @List.dropWhile_suffix Char r2 isTypeChar
  have s2 : r2 <:+ r1 := dropLit_suffix _ _ _ heq2
  have s1 : (']' :: '(' :: r1) <:+ r0 :=
    heq1 ▸ @List.dropWhile_suffix Char r0 (fun c => !(c = ']'))
  have s1b : r1 <:+ (']' :: '(' :: r1) :=
    (List.suffix_cons '(' r1).trans (List.suffix_cons ']' ('(' :: r1))
  have s0b : r0 <:+ ('!' :: '[' :: r0) :=
    (List.suffix_cons '[' r0).trans (List.suffix_cons '!' ('[' :: r0))
  exact s4.trans (s3.trans (s3b.trans (s2.trans (s1b.trans (s1.trans s0b)))))

theorem drop_succ_of_drop_cons {md : List Char} {p : Nat} {c : Char} {cs : List Char}
    (h : md.drop p = c :: cs) : md.drop (p + 1) = cs := by
  have h2 := List.drop_drop 1 p md
  rw [h] at h2
  simpa using h2.symm

theorem drop_add_of_drop_append {md t rest : List Char} {p : Nat}
    (hd : md.drop p = t ++ rest) : md.drop (p + t.length) = rest := by
  have h2 := List.drop_drop t.length p md
  rw [hd] at h2
  rw [← h2, List.drop_left]

theorem finditAux_ge : ∀ (f p : Nat) (s : List Char), ∀ m ∈ finditAux f p s, p ≤ m.1
  | 0, p, s => by simp [finditAux]
  | f + 1, p, [] => by simp [finditAux]
  | f + 1, p, c :: cs => by
    cases hm : matchDataURIAt (c :: cs) with
    | some pr =>
      obtain ⟨rest, g⟩ := pr
      have step : finditAux (f + 1) p (c :: cs) =
          (p, p + ((c :: cs).length - rest.length), g) ::
            finditAux f (p + ((c :: cs).length - rest.length)) rest := by
        simp only [finditAux, hm]
      rw [step]
      intro m hmem
      rcases List.mem_cons.mp hmem with hh | hh
      · subst hh; exact le_rfl
      · exact le_trans (Nat.le_add_right _ _) (finditAux_ge f _ rest m hh)
    | none =>
      have step : finditAux (f + 1) p (c :: cs) = finditAux f (p + 1) cs := by
        simp only [finditAux, hm]
      rw [step]
      intro m hmem
      exact le_trans (Nat.le_succ p) (finditAux_ge f (p + 1) cs m hmem)

theorem replaceLoop_shift (md : List Char) (client : Option DescribeFn)
    (ms : List (Nat × Nat × List Char)) (p : Nat) (c : Char) (cs : List Char)
    (hdrop : md.drop p = c :: cs) (hge : ∀ m ∈ ms, p + 1 ≤ m.1) :
    replaceLoop md client ms p = c :: replaceLoop md client ms (p + 1) := by
  cases ms with
  | nil =>
    simp only [replaceLoop]
    rw [hdrop, drop_succ_of_drop_cons hdrop]
  | cons m ms' =>
    obtain ⟨st, en, g⟩ := m
    have hst : p + 1 ≤ st := hge (st, en, g) (by simp)
    simp only [replaceLoop]
    have hslice : pySlice md p st = c :: pySlice md (p + 1) st := by
      unfold pySlice
      rw [hdrop, drop_succ_of_drop_cons hdrop]
      have hsp : st - p = (st - (p + 1)) + 1 := by omega
      rw [hsp, List.take_cons (by omega)]
      simp
    rw [hslice]
    simp [List.cons_append]

theorem finditAux_nil_scan (md : List Char) (client : Option DescribeFn) :
    ∀ (f p : Nat) (s : List Char), finditAux f p s = [] → scanReplAux md client f p s = s
  | 0, _, _, _ => rfl
  | _ + 1, _, [], _ => rfl
  | f + 1, p, c :: cs, h => by
    cases hm : matchDataURIAt (c :: cs) with
    | some pr =>
      obtain ⟨rest, g⟩ := pr
      have step : finditAux (f + 1) p (c :: cs) =
          (p, p + ((c :: cs).length - rest.length), g) ::
            finditAux f (p + ((c :: cs).length - rest.length)) rest := by
        simp only [finditAux, hm]
      rw [step] at h
      exact absurd h (by simp)
    | none =>
      have step1 : finditAux (f + 1) p (c :: cs) = finditAux f (p + 1) cs := by
        simp only [finditAux, hm]
      have step2 : scanReplAux md client (f + 1) p (c :: cs) =
          c :: scanReplAux md client f (p + 1) cs := by
        simp only [scanReplAux, hm]
      rw [step2, finditAux_nil_scan md client f (p + 1) cs (step1 ▸ h)]

theorem replaceLoop_eq_scan (md : List Char) (client : Option DescribeFn) :
    ∀ (f p : Nat) (s : List Char), md.drop p = s → s.length ≤ f →
      replaceLoop md client (finditAux f p s) p = scanReplAux md client f p s
  | 0, p, s, hd, _ => by
    simp only [finditAux, scanReplAux, replaceLoop]
    exact hd
  | f + 1, p, [], hd, _ => by
    simp only [finditAux, scanReplAux, replaceLoop]
    exact hd
  | f + 1, p, c :: cs, hd, hf => by
    cases hm : matchDataURIAt (c :: cs) with
    | some pr =>
      obtain ⟨rest, g⟩ := pr
      obtain ⟨t, ht⟩ := matchDataURIAt_suffix _ _ _ hm
      have hk : (c :: cs).length - rest.length = t.length := by
        rw [← ht, List.length_append]
        omega
      have hdrop2 : md.drop (p + ((c :: cs).length - rest.length)) = rest := by
        rw [hk]
        exact drop_add_of_drop_append (by rw [hd, ← ht])
      have hlen : rest.length ≤ f := by
        have hsh := matchDataURIAt_shrink _ _ _ hm
        simp only [List.length_cons] at hsh hf
        omega
      have step1 : finditAux (f + 1) p (c :: cs) =
          (p, p + ((c :: cs).length - rest.length), g) ::
            finditAux f (p + ((c :: cs).length - rest.length)) rest := by
        simp only [finditAux, hm]
      have step2 : scanReplAux md client (f + 1) p (c :: cs) =
          image_description_block md client p (p + ((c :: cs).length - rest.length)) g ++
            scanReplAux md client f (p + ((c :: cs).length - rest.length)) rest := by
        simp only [scanReplAux, hm]
      rw [step1, step2]
      simp only [replaceLoop]
      have hself : pySlice md p p = [] := by simp [pySlice]
      rw [hself]
      simp only [List.nil_append]
      congr 1
      exact replaceLoop_eq_scan md client f _ rest hdrop2 hlen
    | none =>
      have step1 : finditAux (f + 1) p (c :: cs) = finditAux f (p + 1) cs := by
        simp only [finditAux, hm]
      have step2 : scanReplAux md client (f + 1) p (c :: cs) =
          c :: scanReplAux md client f (p + 1) cs := by
        simp only [scanReplAux, hm]
      have hdrop2 : md.drop (p + 1) = cs := drop_succ_of_drop_cons hd
      have hlen : cs.length ≤ f := by
        simp only [List.length_cons] at hf
        omega
      have hge : ∀ m ∈ finditAux f (p + 1) cs, p + 1 ≤ m.1 := finditAux_ge f (p + 1) cs
      rw [step1, step2, replaceLoop_shift md client _ p c cs hd hge]
      congr 1
      exact replaceLoop_eq_scan md client f (p + 1) cs hdrop2 hlen

/-- C10: the image-replacement pass is the identity outside the scanned
matches — it equals the direct rewriting pass that copies every character
outside a match verbatim, in order, and splices exactly one block per match
(either a description block or the fixed unavailable-description block) —
and an input with no match is returned unchanged. -/
theorem replace_images_frame (md : List Char) (client : Option DescribeFn) :
    replace_images_with_text md client = scanRepl md client ∧
    ((finditer md).isEmpty = true → replace_images_with_text md client = md) ∧
    (∀ st en g, image_description_block md client st en g =
        "> Image: [description unavailable]\n\n".toList ∨
      ∃ d, d.isEmpty = false ∧ image_description_block md client st en g =
        "> Image: ".toList ++ d ++ "\n\n".toList) := by
  refine ⟨?_, ?_, ?_⟩
  · unfold replace_images_with_text scanRepl
    by_cases hemp : (finditer md).isEmpty
    · rw [if_pos hemp]
      exact (finditAux_nil_scan md client md.length 0 md (List.isEmpty_iff.mp hemp)).symm
    · rw [if_neg hemp]
      exact replaceLoop_eq_scan md client md.length 0 md rfl le_rfl
  · intro hemp
    unfold replace_images_with_text
    rw [if_pos hemp]
  · intro st en g
    unfold image_description_block
    cases client with
    | none => left; rfl
    | some f =>
      cases hfg : f g (build_surrounding_context md st en CONTEXT_BEFORE_CHARS
          CONTEXT_AFTER_CHARS MAX_CONTEXT_CHARS) with
      | none =>
        left
        dsimp only
        rw [hfg]
        rfl
      | some d =>
        by_cases hde : d.isEmpty
        · left
          dsimp only
          rw [hfg]
          simp [hde]
        · right
          refine ⟨d, by simpa using hde, ?_⟩
          dsimp only
          rw [hfg]
          simp [hde]

/-- C10 witness: an input with no image marker is returned unchanged. -/
theorem replace_images_frame_witness :
    (finditer ("abc".toList)).isEmpty = true ∧
    replace_images_with_text ("abc".toList) none = "abc".toList :=
  ⟨by decide, (replace_images_frame ("abc".toList) none).2.1 (by decide)⟩
